import Mathlib

/-!
Shallow embedding of `src/memoize.ts` (`memoize_async` and its helper
`createCacheKeyFromArgs`), together with proofs of the specified properties.

The source is a single-threaded (JavaScript event loop) async memoizer.
We model:
  * the scalar argument domain `string | number | boolean | undefined`
    (`null` is excluded by the `SimpleArgs` type) as `Scalar`;
  * the cache `Map` as an insertion-ordered association list (JS `Map`
    preserves first-insertion order; `set` of a fresh key appends,
    `delete` removes in place);
  * promises as opaque handles (natural-number ids) whose eventual
    outcome (`ok` or `err`) is fixed at invocation time, since the wrapped
    function is modelled as a pure map from argument tuples to outcomes;
  * `setTimeout(() => cache.delete(cacheKey), ttl * 1000)` as an armed
    timer `(key, now + ttl * 1000)`; timers fire when the clock passes
    their fire time (an `advance` event); the callback deletes by key;
  * the event-loop atomicity of the synchronous body of the memoized
    function: one `call` event is one atomic step, and "concurrent" calls
    are consecutive events with no timer processing in between.
-/

/-- Scalar argument domain of `SimpleArgs`: `string | number | boolean |
undefined` (no `null`).  JS numbers are modelled by integers; the claims
about the key encoder are stated over this domain. -/
inductive Scalar where
  | str (s : String)
  | num (n : Int)
  | bool (b : Bool)
  | undef
deriving DecidableEq, Repr

/-- JS `ToString` of a scalar, as produced by the template literal
`${arg}` in `createCacheKeyFromArgs`. -/
def stringifyScalar : Scalar → String
  | .str s => s
  | .num n => toString n
  | .bool b => if b then "true" else "false"
  | .undef => "undefined"

/-- Embedding of `createCacheKeyFromArgs`:
`args.reduce((cacheKey, arg) => (cacheKey += `_${...}_`), '')`.
Over the `SimpleArgs` domain `typeof arg === 'object'` is always false
(`null` is excluded and `typeof undefined === 'undefined'`), so the
`JSON.stringify(args)` branch is unreachable and each argument
contributes `_` ++ its template-literal stringification ++ `_`. -/
def createCacheKeyFromArgs (args : List Scalar) : String :=
  args.foldl (fun cacheKey arg => cacheKey ++ "_" ++ stringifyScalar arg ++ "_") ""

section MapModel

variable {κ β : Type} [DecidableEq κ]

/-- JS `Map.get`: the value of the (unique) entry with the given key. -/
def mapGet : List (κ × β) → κ → Option β
  | [], _ => none
  | e :: rest, k => if e.1 = k then some e.2 else mapGet rest k

/-- JS `Map.set`: update in place if the key is present (keeping its
insertion position), otherwise append at the end. -/
def mapSet : List (κ × β) → κ → β → List (κ × β)
  | [], k, v => [(k, v)]
  | e :: rest, k, v => if e.1 = k then (k, v) :: rest else e :: mapSet rest k v

/-- JS `Map.delete`: remove the entry with the given key, in place. -/
def mapDelete : List (κ × β) → κ → List (κ × β)
  | [], _ => []
  | e :: rest, k => if e.1 = k then rest else e :: mapDelete rest k

end MapModel

/-- Configuration of `memoize_async`: `{ ttl: seconds, size: max entries }`. -/
structure Config where
  ttl : Nat
  size : Nat
deriving DecidableEq, Repr

/-- Settled outcome of a promise returned by the wrapped function:
fulfilled with a value or rejected with an error. -/
inductive Outcome (E R : Type) where
  | ok (value : R)
  | err (error : E)
deriving DecidableEq, Repr

/-- State of one memoized function produced by `memoize_async`:
  * `cache`: the `Map` from cache key to promise, modelled as an
    insertion-ordered association list from key to promise id;
  * `promises`: the settled outcome each promise id will deliver
    (fixed at invocation, since the wrapped function is a pure map);
  * `timers`: pending `setTimeout` deletions as `(key, fire time in ms)`;
  * `now`: the current clock in milliseconds;
  * `nextId`: the next fresh promise id;
  * `invocations`: the argument tuples passed to the wrapped function
    `f`, in order — its length counts how often `f` was invoked. -/
structure MemoState (E R : Type) where
  cache : List (String × Nat)
  promises : List (Nat × Outcome E R)
  timers : List (String × Nat)
  now : Nat
  nextId : Nat
  invocations : List (List Scalar)
deriving DecidableEq, Repr

variable {E R : Type}

/-- Initial state: `new Map()`, no timers, nothing invoked. -/
def initState : MemoState E R :=
  { cache := [], promises := [], timers := [], now := 0, nextId := 0,
    invocations := [] }

/-- Eviction step at the end of the miss path:
`if (cache.size > options.size) { const oldest = cache.keys().next().value;
cache.delete(oldest); }` — the first key in insertion order is deleted. -/
def evictFn (cfg : Config) (s : MemoState E R) : MemoState E R :=
  if s.cache.length > cfg.size then
    match s.cache with
    | [] => s
    | oldest :: _ => { s with cache := mapDelete s.cache oldest.1 }
  else s

/-- One invocation of the memoized function (the anonymous
`(...args) => { ... }` body of `memoize_async`), executed atomically on
the event loop.  Returns the new state and the promise id handed back to
the caller.  On a hit the cached promise is returned unchanged; on a miss
`f` is invoked, the promise is inserted, a `setTimeout` deletion is armed
for `now + ttl * 1000`, and the eviction step runs. -/
def memoizedCall (cfg : Config) (f : List Scalar → Outcome E R)
    (s : MemoState E R) (args : List Scalar) : MemoState E R × Nat :=
  match mapGet s.cache (createCacheKeyFromArgs args) with
  | some cached => (s, cached)
  | none =>
      (evictFn cfg
        { cache := mapSet s.cache (createCacheKeyFromArgs args) s.nextId
          promises := s.promises ++ [(s.nextId, f args)]
          timers := s.timers ++
            [(createCacheKeyFromArgs args, s.now + cfg.ttl * 1000)]
          now := s.now
          nextId := s.nextId + 1
          invocations := s.invocations ++ [args] }, s.nextId)

/-- The exposed `cache_size: () => cache.size`. -/
def cache_size (s : MemoState E R) : Nat := s.cache.length

/-- The exposed `clear_cache: () => cache.clear()`.  Note: only the map is
cleared; the pending `setTimeout` callbacks are not cancelled. -/
def clear_cache (s : MemoState E R) : MemoState E R := { s with cache := [] }

/-- Advance the clock by `d` milliseconds; every pending `setTimeout`
whose fire time has been reached runs its callback
`() => cache.delete(cacheKey)` and is discharged. -/
def advanceFn (d : Nat) (s : MemoState E R) : MemoState E R :=
  { s with
    now := s.now + d
    cache := (s.timers.filter (fun p => p.2 ≤ s.now + d)).foldl
      (fun c p => mapDelete c p.1) s.cache
    timers := s.timers.filter (fun p => ¬ p.2 ≤ s.now + d) }

/-- Events that can be interleaved on the event loop: an invocation of
the memoized function, the clock advancing (firing due timers), and
`clear_cache()`. -/
inductive Op where
  | call (args : List Scalar)
  | advance (d : Nat)
  | clear
deriving DecidableEq, Repr

/-- One event-loop step. -/
def stepFn (cfg : Config) (f : List Scalar → Outcome E R)
    (s : MemoState E R) : Op → MemoState E R
  | .call args => (memoizedCall cfg f s args).1
  | .advance d => advanceFn d s
  | .clear => clear_cache s

/-- Run a sequence of events. -/
def runFn (cfg : Config) (f : List Scalar → Outcome E R)
    (s : MemoState E R) (ops : List Op) : MemoState E R :=
  ops.foldl (stepFn cfg f) s

/-- `n` back-to-back invocations of the memoized function with the same
arguments (no timer processing in between — the event-loop picture of
`n` concurrent callers issued before the first promise settles).
Returns the final state and the promise ids handed to the callers. -/
def callRepeat (cfg : Config) (f : List Scalar → Outcome E R)
    (s : MemoState E R) (args : List Scalar) : Nat → MemoState E R × List Nat
  | 0 => (s, [])
  | n + 1 =>
      (((callRepeat cfg f (memoizedCall cfg f s args).1 args n).1),
        (memoizedCall cfg f s args).2 ::
          (callRepeat cfg f (memoizedCall cfg f s args).1 args n).2)

/-- Sample wrapped function that always fulfills with `0`, used for
concrete instantiations. -/
def fOk : List Scalar → Outcome Nat Nat := fun _ => Outcome.ok 0

/-- Sample wrapped function that always rejects with error `7`, used for
concrete instantiations. -/
def fErr : List Scalar → Outcome Nat Nat := fun _ => Outcome.err 7

/-- Sample configuration `{ ttl: 60, size: 100 }` from the spec's
cache-hit example. -/
def cfg60 : Config := { ttl := 60, size := 100 }

section MapLemmas

variable {κ β : Type} [DecidableEq κ]

lemma mapGet_eq_none {c : List (κ × β)} {k : κ} :
    mapGet c k = none ↔ ∀ e ∈ c, e.1 ≠ k := by
  induction c with
  | nil => simp [mapGet]
  | cons e rest ih =>
    by_cases h : e.1 = k
    · simp [mapGet, h]
    · simp [mapGet, h, ih]

lemma mapGet_append_some {c m : List (κ × β)} {k : κ} {v : β}
    (h : mapGet c k = some v) : mapGet (c ++ m) k = some v := by
  induction c with
  | nil => simp [mapGet] at h
  | cons e rest ih =>
    by_cases he : e.1 = k
    · simp [mapGet, he] at h ⊢; exact h
    · simp [mapGet, he] at h ⊢; exact ih h

lemma mapGet_append_none {c m : List (κ × β)} {k : κ}
    (h : mapGet c k = none) : mapGet (c ++ m) k = mapGet m k := by
  induction c with
  | nil => simp
  | cons e rest ih =>
    by_cases he : e.1 = k
    · simp [mapGet, he] at h
    · simp [mapGet, he] at h ⊢; exact ih h

lemma mapSet_of_absent {c : List (κ × β)} {k : κ} (v : β)
    (h : mapGet c k = none) : mapSet c k v = c ++ [(k, v)] := by
  induction c with
  | nil => simp [mapSet]
  | cons e rest ih =>
    by_cases he : e.1 = k
    · simp [mapGet, he] at h
    · simp [mapGet, he] at h
      simp [mapSet, he, ih h]

lemma mapDelete_sublist (c : List (κ × β)) (k : κ) :
    (mapDelete c k).Sublist c := by
  induction c with
  | nil => simp [mapDelete]
  | cons e rest ih =>
    by_cases he : e.1 = k
    · simp only [mapDelete, he, if_true]
      exact List.sublist_cons_self e rest
    · simpa [mapDelete, he] using ih.cons₂ e

lemma mapGet_mapDelete_ne {c : List (κ × β)} {k k2 : κ} (h : k ≠ k2) :
    mapGet (mapDelete c k2) k = mapGet c k := by
  induction c with
  | nil => simp [mapDelete]
  | cons e rest ih =>
    by_cases he : e.1 = k2
    · have h2 : ¬ (k2 = k) := fun hc => h hc.symm
      simp [mapDelete, mapGet, he, h2]
    · by_cases hk : e.1 = k
      · simp [mapDelete, mapGet, hk, h, he]
      · simp [mapDelete, he, mapGet, hk, ih]

lemma mapGet_none_mapDelete {c : List (κ × β)} {k : κ} (k2 : κ)
    (h : mapGet c k = none) : mapGet (mapDelete c k2) k = none := by
  rw [mapGet_eq_none] at h ⊢
  intro e he
  exact h e ((mapDelete_sublist c k2).subset he)

lemma mapGet_mapDelete_self {c : List (κ × β)} {k : κ}
    (hnd : (c.map Prod.fst).Nodup) : mapGet (mapDelete c k) k = none := by
  induction c with
  | nil => simp [mapDelete, mapGet]
  | cons e rest ih =>
    simp only [List.map_cons, List.nodup_cons] at hnd
    by_cases he : e.1 = k
    · have hred : mapDelete (e :: rest) k = rest := by simp [mapDelete, he]
      rw [hred, mapGet_eq_none]
      intro x hx hxk
      exact hnd.1 (by rw [he, ← hxk]; exact List.mem_map_of_mem Prod.fst hx)
    · simp [mapDelete, he, mapGet, ih hnd.2]

lemma nodup_mapDelete {c : List (κ × β)} {k : κ}
    (hnd : (c.map Prod.fst).Nodup) : ((mapDelete c k).map Prod.fst).Nodup :=
  ((mapDelete_sublist c k).map Prod.fst).nodup hnd

lemma mapGet_mapDelete_cases {c : List (κ × β)} {k : κ} {v : β} (k2 : κ)
    (hnd : (c.map Prod.fst).Nodup) (h : mapGet c k = some v) :
    mapGet (mapDelete c k2) k = some v ∨ mapGet (mapDelete c k2) k = none := by
  by_cases hk : k = k2
  · right; rw [hk]; exact mapGet_mapDelete_self hnd
  · left; rw [mapGet_mapDelete_ne hk]; exact h

omit [DecidableEq κ] in
lemma nodup_snoc {l : List κ} {a : κ} (h1 : l.Nodup) (h2 : a ∉ l) :
    (l ++ [a]).Nodup := by
  induction l with
  | nil => simp
  | cons x xs ih =>
    simp only [List.nodup_cons] at h1
    simp only [List.mem_cons, not_or] at h2
    simp only [List.cons_append, List.nodup_cons]
    refine ⟨?_, ih h1.2 h2.2⟩
    simp only [List.mem_append, List.mem_singleton, not_or]
    exact ⟨h1.1, fun hx => h2.1 hx.symm⟩

end MapLemmas

lemma runFn_nil (cfg : Config) (f : List Scalar → Outcome E R)
    (s : MemoState E R) : runFn cfg f s [] = s := rfl

lemma runFn_cons (cfg : Config) (f : List Scalar → Outcome E R)
    (s : MemoState E R) (op : Op) (ops : List Op) :
    runFn cfg f s (op :: ops) = runFn cfg f (stepFn cfg f s op) ops := rfl

lemma memoizedCall_hit (cfg : Config) (f : List Scalar → Outcome E R)
    {s : MemoState E R} {args : List Scalar} {v : Nat}
    (h : mapGet s.cache (createCacheKeyFromArgs args) = some v) :
    memoizedCall cfg f s args = (s, v) := by
  simp [memoizedCall, h]

lemma memoizedCall_miss (cfg : Config) (f : List Scalar → Outcome E R)
    {s : MemoState E R} {args : List Scalar}
    (h : mapGet s.cache (createCacheKeyFromArgs args) = none) :
    memoizedCall cfg f s args =
      (evictFn cfg
        { cache := mapSet s.cache (createCacheKeyFromArgs args) s.nextId
          promises := s.promises ++ [(s.nextId, f args)]
          timers := s.timers ++
            [(createCacheKeyFromArgs args, s.now + cfg.ttl * 1000)]
          now := s.now
          nextId := s.nextId + 1
          invocations := s.invocations ++ [args] }, s.nextId) := by
  simp [memoizedCall, h]

lemma evictFn_promises (cfg : Config) (s : MemoState E R) :
    (evictFn cfg s).promises = s.promises := by
  unfold evictFn
  split
  · split <;> rfl
  · rfl

lemma evictFn_timers (cfg : Config) (s : MemoState E R) :
    (evictFn cfg s).timers = s.timers := by
  unfold evictFn
  split
  · split <;> rfl
  · rfl

lemma evictFn_invocations (cfg : Config) (s : MemoState E R) :
    (evictFn cfg s).invocations = s.invocations := by
  unfold evictFn
  split
  · split <;> rfl
  · rfl

lemma fold_delete_none {ds : List (String × Nat)} :
    ∀ {c : List (String × Nat)} {k : String}, mapGet c k = none →
      mapGet (ds.foldl (fun c p => mapDelete c p.1) c) k = none := by
  induction ds with
  | nil => intro c k h; simpa using h
  | cons p rest ih =>
    intro c k h
    exact ih (mapGet_none_mapDelete p.1 h)

lemma fold_delete_cases {ds : List (String × Nat)} :
    ∀ {c : List (String × Nat)} {k : String} {v : Nat},
      (c.map Prod.fst).Nodup → mapGet c k = some v →
      mapGet (ds.foldl (fun c p => mapDelete c p.1) c) k = some v ∨
        mapGet (ds.foldl (fun c p => mapDelete c p.1) c) k = none := by
  induction ds with
  | nil => intro c k v _ h; left; simpa using h
  | cons p rest ih =>
    intro c k v hnd h
    simp only [List.foldl_cons]
    rcases mapGet_mapDelete_cases p.1 hnd h with h' | h'
    · exact ih (nodup_mapDelete hnd) h'
    · right; exact fold_delete_none h'

lemma nodup_fold_delete {ds : List (String × Nat)} :
    ∀ {c : List (String × Nat)}, (c.map Prod.fst).Nodup →
      ((ds.foldl (fun c p => mapDelete c p.1) c).map Prod.fst).Nodup := by
  induction ds with
  | nil => intro c h; simpa using h
  | cons p rest ih =>
    intro c h
    exact ih (nodup_mapDelete h)

lemma fold_delete_mem {ds : List (String × Nat)} :
    ∀ {c : List (String × Nat)} {k : String},
      (c.map Prod.fst).Nodup → k ∈ ds.map Prod.fst →
      mapGet (ds.foldl (fun c p => mapDelete c p.1) c) k = none := by
  induction ds with
  | nil => intro c k _ hmem; simp at hmem
  | cons p rest ih =>
    intro c k hnd hmem
    simp only [List.map_cons, List.mem_cons] at hmem
    simp only [List.foldl_cons]
    rcases hmem with hmem | hmem
    · subst hmem
      exact fold_delete_none (mapGet_mapDelete_self hnd)
    · exact ih (nodup_mapDelete hnd) hmem

lemma nodup_insert_fresh {c : List (String × Nat)} {k : String} (v : Nat)
    (hnd : (c.map Prod.fst).Nodup) (h : mapGet c k = none) :
    ((c ++ [(k, v)]).map Prod.fst).Nodup := by
  rw [List.map_append]
  refine nodup_snoc hnd ?_
  rw [mapGet_eq_none] at h
  intro hk
  rcases List.mem_map.mp hk with ⟨e, he, hek⟩
  exact h e he hek

lemma evictFn_nodup (cfg : Config) {s : MemoState E R}
    (hnd : (s.cache.map Prod.fst).Nodup) :
    ((evictFn cfg s).cache.map Prod.fst).Nodup := by
  unfold evictFn
  split
  · split
    · exact hnd
    · exact nodup_mapDelete hnd
  · exact hnd

lemma evictFn_entry_cases (cfg : Config) {s : MemoState E R} {k : String}
    {v : Nat} (hnd : (s.cache.map Prod.fst).Nodup)
    (h : mapGet s.cache k = some v) :
    mapGet (evictFn cfg s).cache k = some v ∨
      mapGet (evictFn cfg s).cache k = none := by
  unfold evictFn
  split
  · split
    · exact Or.inl h
    · exact mapGet_mapDelete_cases _ hnd h
  · exact Or.inl h

lemma stepFn_nodup (cfg : Config) (f : List Scalar → Outcome E R)
    {s : MemoState E R} (op : Op) (hnd : (s.cache.map Prod.fst).Nodup) :
    ((stepFn cfg f s op).cache.map Prod.fst).Nodup := by
  cases op with
  | call args =>
    cases hc : mapGet s.cache (createCacheKeyFromArgs args) with
    | some v => simp [stepFn, memoizedCall_hit cfg f hc, hnd]
    | none =>
      simp only [stepFn, memoizedCall_miss cfg f hc]
      refine evictFn_nodup cfg ?_
      simpa [mapSet_of_absent _ hc] using nodup_insert_fresh s.nextId hnd hc
  | advance d => exact nodup_fold_delete hnd
  | clear => simp [stepFn, clear_cache]

lemma stepFn_entry (cfg : Config) (f : List Scalar → Outcome E R)
    {s : MemoState E R} (op : Op) {k : String} {v : Nat}
    (hnd : (s.cache.map Prod.fst).Nodup) (h : mapGet s.cache k = some v) :
    mapGet (stepFn cfg f s op).cache k = some v ∨
      mapGet (stepFn cfg f s op).cache k = none := by
  cases op with
  | call args =>
    cases hc : mapGet s.cache (createCacheKeyFromArgs args) with
    | some w => simp only [stepFn, memoizedCall_hit cfg f hc]; exact Or.inl h
    | none =>
      simp only [stepFn, memoizedCall_miss cfg f hc]
      refine evictFn_entry_cases cfg ?_ ?_
      · simpa [mapSet_of_absent _ hc] using nodup_insert_fresh s.nextId hnd hc
      · rw [mapSet_of_absent _ hc]
        exact mapGet_append_some h
  | advance d => exact fold_delete_cases hnd h
  | clear => right; simp [stepFn, clear_cache, mapGet]

lemma runFn_nodup (cfg : Config) (f : List Scalar → Outcome E R)
    {ops : List Op} :
    ∀ {s : MemoState E R}, (s.cache.map Prod.fst).Nodup →
      ((runFn cfg f s ops).cache.map Prod.fst).Nodup := by
  induction ops with
  | nil => intro s h; simpa [runFn_nil] using h
  | cons op rest ih =>
    intro s h
    rw [runFn_cons]
    exact ih (stepFn_nodup cfg f op h)

lemma runFn_preserves_entry (cfg : Config) (f : List Scalar → Outcome E R)
    {ops : List Op} :
    ∀ {s : MemoState E R} {k : String} {v : Nat},
      (s.cache.map Prod.fst).Nodup → mapGet s.cache k = some v →
      (∀ i, i ≤ ops.length →
        mapGet (runFn cfg f s (ops.take i)).cache k ≠ none) →
      mapGet (runFn cfg f s ops).cache k = some v := by
  induction ops with
  | nil => intro s k v _ h _; simpa [runFn_nil] using h
  | cons op rest ih =>
    intro s k v hnd h hsurv
    rw [runFn_cons]
    have hstep : mapGet (stepFn cfg f s op).cache k = some v := by
      rcases stepFn_entry cfg f op hnd h with h' | h'
      · exact h'
      · exact absurd (by simpa [runFn_cons, runFn_nil] using h') (by
          have := hsurv 1 (by simp)
          simpa [List.take, runFn_cons, runFn_nil] using this)
    refine ih (stepFn_nodup cfg f op hnd) hstep ?_
    intro i hi
    have := hsurv (i + 1) (by simpa using Nat.succ_le_succ hi)
    simpa [List.take, runFn_cons] using this

lemma stepFn_promises_entry (cfg : Config) (f : List Scalar → Outcome E R)
    {s : MemoState E R} (op : Op) {i : Nat} {o : Outcome E R}
    (h : mapGet s.promises i = some o) :
    mapGet (stepFn cfg f s op).promises i = some o := by
  cases op with
  | call args =>
    cases hc : mapGet s.cache (createCacheKeyFromArgs args) with
    | some w => simpa [stepFn, memoizedCall_hit cfg f hc] using h
    | none =>
      simp only [stepFn, memoizedCall_miss cfg f hc, evictFn_promises]
      exact mapGet_append_some h
  | advance d => simpa [stepFn, advanceFn] using h
  | clear => simpa [stepFn, clear_cache] using h

lemma runFn_promises_entry (cfg : Config) (f : List Scalar → Outcome E R)
    {ops : List Op} :
    ∀ {s : MemoState E R} {i : Nat} {o : Outcome E R},
      mapGet s.promises i = some o →
      mapGet (runFn cfg f s ops).promises i = some o := by
  induction ops with
  | nil => intro s i o h; simpa [runFn_nil] using h
  | cons op rest ih =>
    intro s i o h
    rw [runFn_cons]
    exact ih (stepFn_promises_entry cfg f op h)

lemma evictFn_entry_last (cfg : Config) (s : MemoState E R)
    (hsz : 1 ≤ cfg.size) (k : String) (v : Nat)
    (hk : mapGet s.cache k = some v)
    (hex : ∃ c, s.cache = c ++ [(k, v)] ∧ mapGet c k = none) :
    mapGet (evictFn cfg s).cache k = some v := by
  unfold evictFn
  split
  · rename_i hlen
    obtain ⟨c, hcc, habs⟩ := hex
    split
    · rename_i heq
      rw [hcc] at heq
      exact absurd heq (by simp)
    · rename_i oldest rest' heq
      cases c with
      | nil =>
        rw [hcc] at hlen
        simp at hlen
        omega
      | cons e c' =>
        rw [hcc] at heq
        simp only [List.cons_append] at heq
        injection heq with h1 h2
        subst h1
        have he : e.1 ≠ k := by
          rw [mapGet_eq_none] at habs
          exact habs e (List.mem_cons_self e c')
        simp only
        rw [mapGet_mapDelete_ne fun hx => he hx.symm]
        exact hk
  · exact hk

lemma memoizedCall_entry (cfg : Config) (f : List Scalar → Outcome E R)
    (s : MemoState E R) (args : List Scalar) (hsz : 1 ≤ cfg.size) :
    mapGet (memoizedCall cfg f s args).1.cache (createCacheKeyFromArgs args)
      = some (memoizedCall cfg f s args).2 := by
  cases hc : mapGet s.cache (createCacheKeyFromArgs args) with
  | some v => simp [memoizedCall_hit cfg f hc, hc]
  | none =>
    rw [memoizedCall_miss cfg f hc]
    simp only
    have hset : mapSet s.cache (createCacheKeyFromArgs args) s.nextId
        = s.cache ++ [(createCacheKeyFromArgs args, s.nextId)] :=
      mapSet_of_absent _ hc
    have hlast : mapGet (s.cache ++ [(createCacheKeyFromArgs args, s.nextId)])
        (createCacheKeyFromArgs args) = some s.nextId := by
      rw [mapGet_append_none hc]; simp [mapGet]
    exact evictFn_entry_last cfg _ hsz _ _ (hset.symm ▸ hlast)
      ⟨s.cache, hset, hc⟩

lemma runFn_all_hits (cfg : Config) (f : List Scalar → Outcome E R)
    {l : List (List Scalar)} :
    ∀ {s : MemoState E R},
      (∀ x ∈ l, ∃ v, mapGet s.cache (createCacheKeyFromArgs x) = some v) →
      runFn cfg f s (l.map Op.call) = s := by
  induction l with
  | nil => intro s _; rfl
  | cons x rest ih =>
    intro s h
    rcases h x (List.mem_cons_self x rest) with ⟨v, hv⟩
    rw [List.map_cons, runFn_cons]
    have hstep : stepFn cfg f s (Op.call x) = s := by
      simp [stepFn, memoizedCall_hit cfg f hv]
    rw [hstep]
    exact ih fun y hy => h y (List.mem_cons_of_mem x hy)

lemma memoizedCall_miss_invocations (cfg : Config)
    (f : List Scalar → Outcome E R) {s : MemoState E R} {args : List Scalar}
    (h : mapGet s.cache (createCacheKeyFromArgs args) = none) :
    (memoizedCall cfg f s args).1.invocations = s.invocations ++ [args] := by
  rw [memoizedCall_miss cfg f h]
  simp [evictFn_invocations]

lemma callRepeat_hits (cfg : Config) (f : List Scalar → Outcome E R)
    {s : MemoState E R} {args : List Scalar} {v : Nat} (n : Nat)
    (h : mapGet s.cache (createCacheKeyFromArgs args) = some v) :
    callRepeat cfg f s args n = (s, List.replicate n v) := by
  induction n with
  | zero => rfl
  | succ m ih =>
    simp [callRepeat, memoizedCall_hit cfg f h, ih, List.replicate_succ]

lemma fold_delete_length (ds : List (String × Nat)) :
    ∀ c : List (String × Nat),
      (ds.foldl (fun c p => mapDelete c p.1) c).length ≤ c.length := by
  induction ds with
  | nil => intro c; simp
  | cons p rest ih =>
    intro c
    simp only [List.foldl_cons]
    exact le_trans (ih (mapDelete c p.1)) (mapDelete_sublist c p.1).length_le

lemma evictFn_length (cfg : Config) (s : MemoState E R)
    (h : s.cache.length ≤ cfg.size + 1) :
    (evictFn cfg s).cache.length ≤ cfg.size := by
  unfold evictFn
  split
  · rename_i hlen
    split
    · rename_i heq
      rw [heq] at hlen
      simp at hlen
    · rename_i oldest rest heq
      simp only
      have hdel : mapDelete s.cache oldest.1 = rest := by
        rw [heq]
        simp [mapDelete]
      rw [hdel]
      have : s.cache.length = rest.length + 1 := by rw [heq]; simp
      omega
  · rename_i hlen
    omega

lemma stepFn_size (cfg : Config) (f : List Scalar → Outcome E R)
    {s : MemoState E R} (op : Op) (h : s.cache.length ≤ cfg.size) :
    (stepFn cfg f s op).cache.length ≤ cfg.size := by
  cases op with
  | call args =>
    cases hc : mapGet s.cache (createCacheKeyFromArgs args) with
    | some v => simpa [stepFn, memoizedCall_hit cfg f hc] using h
    | none =>
      simp only [stepFn, memoizedCall_miss cfg f hc]
      refine evictFn_length cfg _ ?_
      simp only [mapSet_of_absent _ hc, List.length_append, List.length_cons,
        List.length_nil]
      omega
  | advance d => exact le_trans (fold_delete_length _ _) h
  | clear => simp [stepFn, clear_cache]

lemma runFn_size (cfg : Config) (f : List Scalar → Outcome E R)
    {ops : List Op} :
    ∀ {s : MemoState E R}, s.cache.length ≤ cfg.size →
      (runFn cfg f s ops).cache.length ≤ cfg.size := by
  induction ops with
  | nil => intro s h; simpa [runFn_nil] using h
  | cons op rest ih =>
    intro s h
    rw [runFn_cons]
    exact ih (stepFn_size cfg f op h)

/-- C3, counterexample: the key encoder is NOT injective over the allowed
scalar domain — the `_` delimiter appears unescaped inside string
arguments, so the distinct tuples `["__"]` and `["", ""]` both encode to
the key `"____"`. -/
theorem key_encoder_delimiter_collision :
    createCacheKeyFromArgs [Scalar.str "__"]
        = createCacheKeyFromArgs [Scalar.str "", Scalar.str ""] ∧
      [Scalar.str "__"] ≠ [Scalar.str "", Scalar.str ""] := by
  constructor
  · rfl
  · decide

/-- C3 (amended): the key encoder is deterministic — identical argument
tuples always yield identical keys — but it is not injective over the
allowed scalar domain: the delimiter causes distinct tuples to collide
onto one key (and cross-type collisions such as the number `1` versus the
string `"1"` exist as well). -/
theorem createCacheKeyFromArgs_deterministic_not_injective :
    (∀ a b : List Scalar, a = b →
        createCacheKeyFromArgs a = createCacheKeyFromArgs b) ∧
      ¬ Function.Injective createCacheKeyFromArgs := by
  refine ⟨fun a b h => by rw [h], fun hinj => ?_⟩
  have h : ([Scalar.str "__"] : List Scalar) = [Scalar.str "", Scalar.str ""] :=
    hinj (show createCacheKeyFromArgs [Scalar.str "__"]
        = createCacheKeyFromArgs [Scalar.str "", Scalar.str ""] from rfl)
  exact absurd h (by decide)

/-- Witness for the determinism component of the amended C3 at a concrete
input. -/
theorem createCacheKeyFromArgs_deterministic_not_injective_witness :
    createCacheKeyFromArgs [Scalar.num 1] = createCacheKeyFromArgs [Scalar.num 1] :=
  createCacheKeyFromArgs_deterministic_not_injective.1
    [Scalar.num 1] [Scalar.num 1] rfl

/-- C4, counterexample: an absent (`undefined`) argument does NOT encode
to a token distinct from every real value — the template literal turns
`undefined` into the text `undefined`, so the distinct one-argument tuples
`[undefined]` and `["undefined"]` both encode to `"_undefined_"`. -/
theorem undefined_key_collision :
    createCacheKeyFromArgs [Scalar.undef]
        = createCacheKeyFromArgs [Scalar.str "undefined"] ∧
      [Scalar.undef] ≠ [Scalar.str "undefined"] := by
  constructor
  · rfl
  · decide

/-- C4 (amended): at every position of every argument tuple, an absent
(`undefined`) argument encodes to exactly the same key as the string
value `"undefined"` at that position — the two are indistinguishable to
the cache. -/
theorem undef_encodes_like_undefined_string (pre post : List Scalar) :
    createCacheKeyFromArgs (pre ++ Scalar.undef :: post)
      = createCacheKeyFromArgs (pre ++ Scalar.str "undefined" :: post) := by
  simp [createCacheKeyFromArgs, List.foldl_append, List.foldl_cons,
    stringifyScalar]

/-- C10: a cache hit leaves the state completely unchanged: when the key
of the arguments is already in the cache `Map`, the memoized function
returns the stored promise and the whole state — cache entries,
`cache_size()`, timers, promises and the invocation log — is untouched
(no insertion, no deletion, no new timer, no eviction step). -/
theorem cache_hit_frame (cfg : Config) (f : List Scalar → Outcome E R)
    (s : MemoState E R) (args : List Scalar) (v : Nat)
    (h : mapGet s.cache (createCacheKeyFromArgs args) = some v) :
    memoizedCall cfg f s args = (s, v) :=
  memoizedCall_hit cfg f h

/-- Witness for C10: after `call(2)` under `{ ttl: 60, size: 100 }`, the
key of `[2]` is cached with promise id `0`, and a second `call(2)` returns
`(unchanged state, 0)`. -/
theorem cache_hit_frame_witness :
    mapGet (memoizedCall cfg60 fOk initState [Scalar.num 2]).1.cache
        (createCacheKeyFromArgs [Scalar.num 2]) = some 0 ∧
      memoizedCall cfg60 fOk (memoizedCall cfg60 fOk initState [Scalar.num 2]).1
          [Scalar.num 2]
        = ((memoizedCall cfg60 fOk initState [Scalar.num 2]).1, 0) :=
  ⟨by decide, cache_hit_frame cfg60 fOk _ [Scalar.num 2] 0 (by decide)⟩

/-- C6: for every sequence of events and every configuration with
`size ≥ 1`, the cache never holds more than `size` entries after any step
(in particular immediately after any insert has completed its eviction
step, since every prefix of events is itself a sequence of events). -/
theorem cache_size_bounded (cfg : Config) (f : List Scalar → Outcome E R)
    (ops : List Op) (hsz : 1 ≤ cfg.size) :
    cache_size (runFn cfg f initState ops) ≤ cfg.size :=
  runFn_size cfg f (by simp [initState])

/-- Witness for C6 at `{ ttl: 60, size: 2 }` with three inserts. -/
theorem cache_size_bounded_witness :
    1 ≤ (Config.mk 60 2).size ∧
      cache_size (runFn (Config.mk 60 2) fOk initState
        [Op.call [Scalar.num 1], Op.call [Scalar.num 2],
         Op.call [Scalar.num 3]]) ≤ (Config.mk 60 2).size :=
  ⟨by decide,
    cache_size_bounded (Config.mk 60 2) fOk
      [Op.call [Scalar.num 1], Op.call [Scalar.num 2],
       Op.call [Scalar.num 3]] (by decide)⟩

/-- C7 (amended): `clear_cache()` empties the store — afterwards
`cache_size()` is `0` and a subsequent call for any (hence in particular a
previously cached) key re-invokes the wrapped function — but it cancels
nothing: the timers armed before the clear are left pending unchanged, so
a pre-clear timer can later fire against a newly inserted entry that
reuses the same key (see the counterexample). -/
theorem clear_cache_empties_but_keeps_timers (cfg : Config)
    (f : List Scalar → Outcome E R) (s : MemoState E R) (args : List Scalar) :
    cache_size (clear_cache s) = 0 ∧
      (clear_cache s).timers = s.timers ∧
      (memoizedCall cfg f (clear_cache s) args).1.invocations
        = s.invocations ++ [args] := by
  refine ⟨rfl, rfl, ?_⟩
  have h : mapGet (clear_cache s).cache (createCacheKeyFromArgs args)
      = none := rfl
  rw [memoizedCall_miss cfg f h]
  simp [evictFn_invocations, clear_cache]

/-- C7, counterexample: with `{ ttl: 1, size: 100 }`, call `("a")` at
`t = 0` (arming a deletion at `t = 1000`), advance to `t = 500`, run
`clear_cache()`, call `("a")` again (new entry, id `1`, armed until
`t = 1500`).  The pre-clear timer was not cancelled (both timers are
pending), and advancing to `t = 1000` — when only the pre-clear timer is
due — removes the newly inserted entry: a timer armed before the clear
fires and deletes a newly inserted entry that reuses the same key. -/
theorem clear_cache_stale_timer_cex :
    (runFn (Config.mk 1 100) fOk initState
        [Op.call [Scalar.str "a"], Op.advance 500, Op.clear,
         Op.call [Scalar.str "a"]]).cache = [("_a_", 1)] ∧
      (runFn (Config.mk 1 100) fOk initState
        [Op.call [Scalar.str "a"], Op.advance 500, Op.clear,
         Op.call [Scalar.str "a"]]).timers
        = [("_a_", 1000), ("_a_", 1500)] ∧
      (runFn (Config.mk 1 100) fOk initState
        [Op.call [Scalar.str "a"], Op.advance 500, Op.clear,
         Op.call [Scalar.str "a"], Op.advance 500]).cache = [] := by
  refine ⟨by decide, by decide, by decide⟩

/-- C8 (amended): when an armed `setTimeout` deletion for a key fires, it
removes whatever entry is currently present under that key — the callback
`() => cache.delete(cacheKey)` performs no identity check, so it does not
compare the present entry with the one that was armed.  (The
counterexample shows it deleting an entry installed after the original
was removed.) -/
theorem timer_fire_removes_current_entry (s : MemoState E R) (d : Nat)
    (k : String) (t : Nat)
    (hnd : (s.cache.map Prod.fst).Nodup)
    (hmem : (k, t) ∈ s.timers) (hdue : t ≤ s.now + d) :
    mapGet (advanceFn d s).cache k = none := by
  have hk : k ∈ (s.timers.filter (fun p => p.2 ≤ s.now + d)).map Prod.fst := by
    refine List.mem_map.mpr ⟨(k, t), ?_, rfl⟩
    exact List.mem_filter.mpr ⟨hmem, by simpa using hdue⟩
  exact fold_delete_mem hnd hk

/-- Witness for C8 (amended): a state holding one entry for key `"_a_"`
with a timer due at `t = 1000`; advancing by `1000` removes the entry. -/
theorem timer_fire_removes_current_entry_witness :
    ((MemoState.mk [("_a_", 0)] [(0, Outcome.ok 0)] [("_a_", 1000)]
          0 1 [[Scalar.str "a"]] : MemoState Nat Nat).cache.map
        Prod.fst).Nodup ∧
      ("_a_", 1000) ∈ (MemoState.mk [("_a_", 0)] [(0, Outcome.ok 0)]
          [("_a_", 1000)] 0 1 [[Scalar.str "a"]] : MemoState Nat Nat).timers ∧
      mapGet (advanceFn 1000 (MemoState.mk [("_a_", 0)] [(0, Outcome.ok 0)]
          [("_a_", 1000)] 0 1 [[Scalar.str "a"]] : MemoState Nat Nat)).cache
        "_a_" = none :=
  ⟨by decide, by decide,
    timer_fire_removes_current_entry _ 1000 "_a_" 1000
      (by decide) (by decide) (by decide)⟩

/-- C8, counterexample: with `{ ttl: 1, size: 1 }`, call `("a")` at
`t = 0` (timer due at `1000`), advance to `t = 500`, call `("b")`
(evicting the original `"a"` entry), call `("a")` again (a NEW entry,
promise id `2`, installed after the original was removed, its own timer
due at `1500`).  Advancing to `t = 1000` — when only the stale timer
armed for the original entry is due — deletes the new entry, refuting
the claim that a stale timer never deletes a later entry under the same
key. -/
theorem stale_timer_deletes_reinserted_entry_cex :
    (runFn (Config.mk 1 1) fOk initState
        [Op.call [Scalar.str "a"], Op.advance 500, Op.call [Scalar.str "b"],
         Op.call [Scalar.str "a"]]).cache = [("_a_", 2)] ∧
      (runFn (Config.mk 1 1) fOk initState
        [Op.call [Scalar.str "a"], Op.advance 500, Op.call [Scalar.str "b"],
         Op.call [Scalar.str "a"]]).timers
        = [("_a_", 1000), ("_b_", 1500), ("_a_", 1500)] ∧
      (runFn (Config.mk 1 1) fOk initState
        [Op.call [Scalar.str "a"], Op.advance 500, Op.call [Scalar.str "b"],
         Op.call [Scalar.str "a"], Op.advance 500]).cache = [] := by
  refine ⟨by decide, by decide, by decide⟩

/-- C1: dedup of concurrent calls — from any state in which the key of
`args` is not cached, `n ≥ 1` back-to-back invocations with identical
arguments (issued before the first call's promise settles, i.e. with no
timer processing in between) invoke the wrapped function exactly once,
and all `n` callers receive the same shared promise (id `s.nextId`). -/
theorem dedup_concurrent_calls (cfg : Config) (f : List Scalar → Outcome E R)
    (s : MemoState E R) (args : List Scalar) (n : Nat)
    (hsz : 1 ≤ cfg.size) (hn : 1 ≤ n)
    (hmiss : mapGet s.cache (createCacheKeyFromArgs args) = none) :
    (callRepeat cfg f s args n).2 = List.replicate n s.nextId ∧
      (callRepeat cfg f s args n).1.invocations = s.invocations ++ [args] := by
  obtain ⟨m, rfl⟩ : ∃ m, n = m + 1 := ⟨n - 1, by omega⟩
  have hid : (memoizedCall cfg f s args).2 = s.nextId := by
    rw [memoizedCall_miss cfg f hmiss]
  have hpresent : mapGet (memoizedCall cfg f s args).1.cache
      (createCacheKeyFromArgs args) = some s.nextId := by
    have h := memoizedCall_entry cfg f s args hsz
    rwa [hid] at h
  have hrep := callRepeat_hits cfg f m hpresent
  constructor
  · simp [callRepeat, hrep, hid, List.replicate_succ]
  · simp only [callRepeat, hrep]
    exact memoizedCall_miss_invocations cfg f hmiss

/-- Witness for C1: three concurrent `call(2)` under
`{ ttl: 60, size: 100 }` all receive promise id `0` and the wrapped
function is invoked exactly once. -/
theorem dedup_concurrent_calls_witness :
    1 ≤ cfg60.size ∧ 1 ≤ 3 ∧
      mapGet (initState : MemoState Nat Nat).cache
        (createCacheKeyFromArgs [Scalar.num 2]) = none ∧
      ((callRepeat cfg60 fOk initState [Scalar.num 2] 3).2
          = List.replicate 3 0 ∧
        (callRepeat cfg60 fOk initState [Scalar.num 2] 3).1.invocations
          = [[Scalar.num 2]]) :=
  ⟨by decide, by decide, by decide,
    dedup_concurrent_calls cfg60 fOk initState [Scalar.num 2] 3
      (by decide) (by decide) (by decide)⟩

/-- C2: cache hit within ttl — after a call for `args`, as long as the
entry survives an arbitrary sequence of further events (never expired by
a timer, never evicted, never cleared: its key is present at every
intermediate state), a later call with the same arguments returns the
very same promise that the first call returned, and leaves the state
unchanged — in particular the wrapped function is not invoked a second
time. -/
theorem cache_hit_within_ttl (cfg : Config) (f : List Scalar → Outcome E R)
    (s : MemoState E R) (args : List Scalar) (ops : List Op)
    (hsz : 1 ≤ cfg.size)
    (hnd : (s.cache.map Prod.fst).Nodup)
    (hsurv : ∀ i, i ≤ ops.length →
      mapGet (runFn cfg f (memoizedCall cfg f s args).1
          (List.take i ops)).cache (createCacheKeyFromArgs args) ≠ none) :
    memoizedCall cfg f (runFn cfg f (memoizedCall cfg f s args).1 ops) args
      = (runFn cfg f (memoizedCall cfg f s args).1 ops,
        (memoizedCall cfg f s args).2) := by
  have h1 := memoizedCall_entry cfg f s args hsz
  have hnd1 : ((memoizedCall cfg f s args).1.cache.map Prod.fst).Nodup := by
    have h := stepFn_nodup cfg f (Op.call args) hnd
    simpa [stepFn] using h
  have h2 := runFn_preserves_entry cfg f hnd1 h1 hsurv
  exact memoizedCall_hit cfg f h2

/-- Witness for C2: the spec's example — `{ ttl: 60, size: 100 }`,
`call(2)` then `call(2)` again immediately returns the same promise id
with the state unchanged. -/
theorem cache_hit_within_ttl_witness :
    1 ≤ cfg60.size ∧
      memoizedCall cfg60 fOk
          (runFn cfg60 fOk (memoizedCall cfg60 fOk initState
            [Scalar.num 2]).1 []) [Scalar.num 2]
        = (runFn cfg60 fOk (memoizedCall cfg60 fOk initState
            [Scalar.num 2]).1 [],
          (memoizedCall cfg60 fOk initState [Scalar.num 2]).2) :=
  ⟨by decide,
    cache_hit_within_ttl cfg60 fOk initState [Scalar.num 2] []
      (by decide) (by decide)
      (fun i hi => by
        have h0 : i = 0 := Nat.le_zero.mp hi
        subst h0
        decide)⟩

/-- C5: eviction is by first-insertion order, not access order — with
`size = 2`, inserting three argument tuples with pairwise distinct keys
(all misses, promise ids `0`, `1`, `2`), with any intervening cache hits
on the already-present keys (hits on A between A and B, hits on A or B
between B and C), the insert of C evicts exactly A: B and C remain, in
insertion order. -/
theorem eviction_by_insertion_order (cfg : Config)
    (f : List Scalar → Outcome E R) (a b c : List Scalar)
    (l1 l2 : List (List Scalar))
    (hsz : cfg.size = 2)
    (hab : createCacheKeyFromArgs a ≠ createCacheKeyFromArgs b)
    (hac : createCacheKeyFromArgs a ≠ createCacheKeyFromArgs c)
    (hbc : createCacheKeyFromArgs b ≠ createCacheKeyFromArgs c)
    (hl1 : ∀ x ∈ l1, createCacheKeyFromArgs x = createCacheKeyFromArgs a)
    (hl2 : ∀ x ∈ l2, createCacheKeyFromArgs x = createCacheKeyFromArgs a ∨
      createCacheKeyFromArgs x = createCacheKeyFromArgs b) :
    (memoizedCall cfg f
        (runFn cfg f
          (memoizedCall cfg f
            (runFn cfg f (memoizedCall cfg f initState a).1
              (l1.map Op.call)) b).1
          (l2.map Op.call)) c).1.cache
      = [(createCacheKeyFromArgs b, 1), (createCacheKeyFromArgs c, 2)] := by
  have hm0 : mapGet (initState : MemoState E R).cache
      (createCacheKeyFromArgs a) = none := rfl
  have hc1 : (memoizedCall cfg f initState a).1.cache
      = [(createCacheKeyFromArgs a, 0)] := by
    rw [memoizedCall_miss cfg f hm0]
    simp [evictFn, mapSet, hsz, initState]
  have hn1 : (memoizedCall cfg f initState a).1.nextId = 1 := by
    rw [memoizedCall_miss cfg f hm0]
    simp [evictFn, mapSet, hsz, initState]
  have hrun1 : runFn cfg f (memoizedCall cfg f initState a).1 (l1.map Op.call)
      = (memoizedCall cfg f initState a).1 :=
    runFn_all_hits cfg f (fun x hx =>
      ⟨0, by rw [hc1, hl1 x hx]; simp [mapGet]⟩)
  rw [hrun1]
  have hm1b : mapGet (memoizedCall cfg f initState a).1.cache
      (createCacheKeyFromArgs b) = none := by
    rw [hc1]; simp [mapGet, hab]
  have hc2 : (memoizedCall cfg f (memoizedCall cfg f initState a).1 b).1.cache
      = [(createCacheKeyFromArgs a, 0), (createCacheKeyFromArgs b, 1)] := by
    rw [memoizedCall_miss cfg f hm1b]
    simp [evictFn, mapSet, hsz, hc1, hn1, hab]
  have hn2 : (memoizedCall cfg f (memoizedCall cfg f initState a).1 b).1.nextId
      = 2 := by
    rw [memoizedCall_miss cfg f hm1b]
    simp [evictFn, mapSet, hsz, hc1, hn1, hab]
  have hrun2 : runFn cfg f
      (memoizedCall cfg f (memoizedCall cfg f initState a).1 b).1
      (l2.map Op.call)
      = (memoizedCall cfg f (memoizedCall cfg f initState a).1 b).1 :=
    runFn_all_hits cfg f (fun x hx => by
      rcases hl2 x hx with h | h
      · exact ⟨0, by rw [hc2, h]; simp [mapGet]⟩
      · exact ⟨1, by rw [hc2, h]; simp [mapGet, hab]⟩)
  rw [hrun2]
  have hm2c : mapGet
      (memoizedCall cfg f (memoizedCall cfg f initState a).1 b).1.cache
      (createCacheKeyFromArgs c) = none := by
    rw [hc2]; simp [mapGet, hac, hbc]
  rw [memoizedCall_miss cfg f hm2c]
  simp [evictFn, mapSet, mapDelete, hsz, hc2, hn2, hac, hbc]

/-- Witness for C5: keys of `[1]`, `[2]`, `[3]` under
`{ ttl: 60, size: 2 }`, with a hit on `[1]` between the first two inserts
and hits on `[1]` and `[2]` before the third; inserting `[3]` evicts the
`[1]` entry and keeps `[2]`, `[3]`. -/
theorem eviction_by_insertion_order_witness :
    (Config.mk 60 2).size = 2 ∧
      createCacheKeyFromArgs [Scalar.num 1]
        ≠ createCacheKeyFromArgs [Scalar.num 2] ∧
      createCacheKeyFromArgs [Scalar.num 1]
        ≠ createCacheKeyFromArgs [Scalar.num 3] ∧
      createCacheKeyFromArgs [Scalar.num 2]
        ≠ createCacheKeyFromArgs [Scalar.num 3] ∧
      (memoizedCall (Config.mk 60 2) fOk
          (runFn (Config.mk 60 2) fOk
            (memoizedCall (Config.mk 60 2) fOk
              (runFn (Config.mk 60 2) fOk
                (memoizedCall (Config.mk 60 2) fOk initState
                  [Scalar.num 1]).1
                ([[Scalar.num 1]].map Op.call)) [Scalar.num 2]).1
            ([[Scalar.num 1], [Scalar.num 2]].map Op.call))
          [Scalar.num 3]).1.cache
        = [(createCacheKeyFromArgs [Scalar.num 2], 1),
           (createCacheKeyFromArgs [Scalar.num 3], 2)] :=
  ⟨by decide, by decide, by decide, by decide,
    eviction_by_insertion_order (Config.mk 60 2) fOk
      [Scalar.num 1] [Scalar.num 2] [Scalar.num 3]
      [[Scalar.num 1]] [[Scalar.num 1], [Scalar.num 2]]
      (by decide) (by decide) (by decide) (by decide)
      (by decide) (by decide)⟩

/-- C9: a failed computation is cached exactly like a successful one —
when `f args` rejects with `e`, the first call invokes `f` once and the
stored promise settles with that failure; every later call while the
entry survives (its key present at every intermediate state) receives
the very same promise, still carrying the same failure, without
re-invoking `f`; and once the entry has been removed, a call for the same
arguments re-invokes `f`. -/
theorem failure_cached_like_success (cfg : Config)
    (f : List Scalar → Outcome E R) (s : MemoState E R)
    (args : List Scalar) (ops : List Op) (e : E)
    (hsz : 1 ≤ cfg.size)
    (hnd : (s.cache.map Prod.fst).Nodup)
    (hmiss : mapGet s.cache (createCacheKeyFromArgs args) = none)
    (hfresh : mapGet s.promises s.nextId = none)
    (hfail : f args = Outcome.err e)
    (hsurv : ∀ i, i ≤ ops.length →
      mapGet (runFn cfg f (memoizedCall cfg f s args).1
          (List.take i ops)).cache (createCacheKeyFromArgs args) ≠ none) :
    (memoizedCall cfg f s args).1.invocations = s.invocations ++ [args] ∧
      mapGet (memoizedCall cfg f s args).1.promises
          (memoizedCall cfg f s args).2 = some (Outcome.err e) ∧
      memoizedCall cfg f (runFn cfg f (memoizedCall cfg f s args).1 ops) args
        = (runFn cfg f (memoizedCall cfg f s args).1 ops,
          (memoizedCall cfg f s args).2) ∧
      mapGet (runFn cfg f (memoizedCall cfg f s args).1 ops).promises
          (memoizedCall cfg f s args).2 = some (Outcome.err e) ∧
      ∀ s2 : MemoState E R,
        mapGet s2.cache (createCacheKeyFromArgs args) = none →
          (memoizedCall cfg f s2 args).1.invocations
            = s2.invocations ++ [args] := by
  have hprom : mapGet (memoizedCall cfg f s args).1.promises
      (memoizedCall cfg f s args).2 = some (Outcome.err e) := by
    rw [memoizedCall_miss cfg f hmiss]
    simp only [evictFn_promises]
    rw [mapGet_append_none hfresh]
    simp [mapGet, hfail]
  refine ⟨memoizedCall_miss_invocations cfg f hmiss, hprom, ?_, ?_, ?_⟩
  · have h1 := memoizedCall_entry cfg f s args hsz
    have hnd1 : ((memoizedCall cfg f s args).1.cache.map Prod.fst).Nodup := by
      have h := stepFn_nodup cfg f (Op.call args) hnd
      simpa [stepFn] using h
    have h2 := runFn_preserves_entry cfg f hnd1 h1 hsurv
    exact memoizedCall_hit cfg f h2
  · exact runFn_promises_entry cfg f hprom
  · intro s2 h2
    exact memoizedCall_miss_invocations cfg f h2

/-- Witness for C9: `{ ttl: 60, size: 100 }` with a wrapped function that
always rejects with `7`; `call(2)` invokes it once, caches the rejected
promise, and an immediate second `call(2)` shares that same rejected
promise. -/
theorem failure_cached_like_success_witness :
    1 ≤ cfg60.size ∧
      (memoizedCall cfg60 fErr initState [Scalar.num 2]).1.invocations
        = [[Scalar.num 2]] ∧
      mapGet (memoizedCall cfg60 fErr initState [Scalar.num 2]).1.promises
          (memoizedCall cfg60 fErr initState [Scalar.num 2]).2
        = some (Outcome.err 7) ∧
      memoizedCall cfg60 fErr
          (runFn cfg60 fErr (memoizedCall cfg60 fErr initState
            [Scalar.num 2]).1 []) [Scalar.num 2]
        = (runFn cfg60 fErr (memoizedCall cfg60 fErr initState
            [Scalar.num 2]).1 [],
          (memoizedCall cfg60 fErr initState [Scalar.num 2]).2) := by
  have h := failure_cached_like_success cfg60 fErr initState [Scalar.num 2]
    [] 7 (by decide) (by decide) (by decide) (by decide) (by decide)
    (fun i hi => by
      have h0 : i = 0 := Nat.le_zero.mp hi
      subst h0
      decide)
  exact ⟨by decide, h.1, h.2.1, h.2.2.1⟩
